import Mathlib

/-!
Verification of the trace-log-comparer core against its specification.

The Rust sources are shallowly embedded:
* strings are modelled as `List Char` (one `Char` per byte of the ASCII
  source text; `String::len` / byte offsets become list lengths);
* `DiffSection`, `DiffPosition`, `calculate_line_diffs` (`diff_lines`),
  `calculate_diffs` (`diff_line_pairs`), `find_next_diff`, `find_prev_diff`
  follow `src/state.rs`;
* the streaming indexing loop of `main` follows `src/main.rs`, with the
  `BufReader` streams modelled as the not-yet-consumed `List Char` and the
  loop written with an explicit fuel argument that provably never runs out.
-/

set_option autoImplicit false

namespace TraceLog

/-- `DiffSection` from `src/state.rs` (text fields are the Rust `String`s). -/
inductive DiffSection where
  | Added : List Char → DiffSection
  | Modified : List Char → List Char → DiffSection
  | Same : List Char → DiffSection
  | Removed : List Char → DiffSection
deriving DecidableEq, Repr

/-- `DiffSection::left_len` from `src/state.rs`. -/
def left_len : DiffSection → Nat
  | DiffSection.Added a => a.length
  | DiffSection.Same a => a.length
  | DiffSection.Removed a => a.length
  | DiffSection.Modified l _ => l.length

/-- The four section kinds, used to state the adjacency invariant. -/
inductive DiffKind where
  | added | modified | same | removed
deriving DecidableEq, Repr

def kindOf : DiffSection → DiffKind
  | DiffSection.Added _ => DiffKind.added
  | DiffSection.Modified _ _ => DiffKind.modified
  | DiffSection.Same _ => DiffKind.same
  | DiffSection.Removed _ => DiffKind.removed

/-- The `merge_diff` closure of `State::calculate_line_diffs`
(`src/state.rs`): state is the completed sections plus the pending
`last_diff`; same-kind neighbours are concatenated, otherwise the pending
section is pushed. -/
def merge_diff : List DiffSection × Option DiffSection → DiffSection →
    List DiffSection × Option DiffSection
  | (ds, some (DiffSection.Added a)), DiffSection.Added b =>
      (ds, some (DiffSection.Added (a ++ b)))
  | (ds, some (DiffSection.Same a)), DiffSection.Same b =>
      (ds, some (DiffSection.Same (a ++ b)))
  | (ds, some (DiffSection.Removed a)), DiffSection.Removed b =>
      (ds, some (DiffSection.Removed (a ++ b)))
  | (ds, some (DiffSection.Modified la ra)), DiffSection.Modified lb rb =>
      (ds, some (DiffSection.Modified (la ++ lb) (ra ++ rb)))
  | (ds, some last), new => (ds ++ [last], some new)
  | (ds, none), new => (ds, some new)

/-- Push the pending section, as done after the character loop. -/
def finalizeDiffs : List DiffSection × Option DiffSection → List DiffSection
  | (ds, some d) => ds ++ [d]
  | (ds, none) => ds

/-- One pass of the same-kind merge step over a section sequence. -/
def runMerge (L : List DiffSection) : List DiffSection :=
  finalizeDiffs (L.foldl merge_diff ([], none))

/-- The `EitherOrBoth::Right` tail of the classification: the left string is
exhausted, every remaining right character is `Added`. -/
def addedTail : List Char → List DiffSection
  | [] => []
  | c :: r => DiffSection.Added [c] :: addedTail r

/-- The per-character classification of the `zip_longest` loop in
`State::calculate_line_diffs` (`src/state.rs`). -/
def classifyChars : List Char → List Char → List DiffSection
  | [], l2 => addedTail l2
  | c :: r, [] => DiffSection.Removed [c] :: classifyChars r []
  | c1 :: r1, c2 :: r2 =>
      (if c1 = c2 then DiffSection.Same [c1]
       else DiffSection.Modified [c1] [c2]) :: classifyChars r1 r2

/-- `State::calculate_line_diffs` (`diff_lines` in the spec),
`src/state.rs`: classify positionally, merging as the loop goes. -/
def calculate_line_diffs (line1 line2 : List Char) : List DiffSection :=
  runMerge (classifyChars line1 line2)

/-- `State::calculate_diffs` (`diff_line_pairs` in the spec),
`src/state.rs`: `zip_longest` over the two line sequences. -/
def addedLines : List (List Char) → List (List DiffSection)
  | [] => []
  | l :: r => [DiffSection.Added l] :: addedLines r

def calculate_diffs : List (List Char) → List (List Char) → List (List DiffSection)
  | [], l2 => addedLines l2
  | l1 :: r1, [] => [DiffSection.Removed l1] :: calculate_diffs r1 []
  | l1 :: r1, l2 :: r2 => calculate_line_diffs l1 l2 :: calculate_diffs r1 r2

/-- Left-side text contributed by a section (Same, Modified-left, Removed). -/
def leftText : DiffSection → List Char
  | DiffSection.Added _ => []
  | DiffSection.Same a => a
  | DiffSection.Removed a => a
  | DiffSection.Modified l _ => l

/-- Right-side text contributed by a section (Same, Modified-right, Added). -/
def rightText : DiffSection → List Char
  | DiffSection.Added a => a
  | DiffSection.Same a => a
  | DiffSection.Removed _ => []
  | DiffSection.Modified _ r => r

def leftJoin (L : List DiffSection) : List Char := (L.map leftText).flatten

def rightJoin (L : List DiffSection) : List Char := (L.map rightText).flatten

theorem leftJoin_nil : leftJoin [] = [] := rfl

theorem leftJoin_cons (d : DiffSection) (L : List DiffSection) :
    leftJoin (d :: L) = leftText d ++ leftJoin L := by
  simp [leftJoin]

theorem leftJoin_append (L M : List DiffSection) :
    leftJoin (L ++ M) = leftJoin L ++ leftJoin M := by
  simp [leftJoin]

theorem rightJoin_nil : rightJoin [] = [] := rfl

theorem rightJoin_cons (d : DiffSection) (L : List DiffSection) :
    rightJoin (d :: L) = rightText d ++ rightJoin L := by
  simp [rightJoin]

theorem rightJoin_append (L M : List DiffSection) :
    rightJoin (L ++ M) = rightJoin L ++ rightJoin M := by
  simp [rightJoin]

theorem leftJoin_finalize_merge (st : List DiffSection × Option DiffSection)
    (new : DiffSection) :
    leftJoin (finalizeDiffs (merge_diff st new)) =
      leftJoin (finalizeDiffs st) ++ leftText new := by
  obtain ⟨ds, last⟩ := st
  cases last with
  | none => simp [merge_diff, finalizeDiffs, leftJoin_append, leftJoin_cons, leftJoin_nil]
  | some d =>
      cases d <;> cases new <;>
        simp [merge_diff, finalizeDiffs, leftJoin_append, leftJoin_cons,
          leftJoin_nil, leftText, List.append_assoc]

theorem rightJoin_finalize_merge (st : List DiffSection × Option DiffSection)
    (new : DiffSection) :
    rightJoin (finalizeDiffs (merge_diff st new)) =
      rightJoin (finalizeDiffs st) ++ rightText new := by
  obtain ⟨ds, last⟩ := st
  cases last with
  | none => simp [merge_diff, finalizeDiffs, rightJoin_append, rightJoin_cons, rightJoin_nil]
  | some d =>
      cases d <;> cases new <;>
        simp [merge_diff, finalizeDiffs, rightJoin_append, rightJoin_cons,
          rightJoin_nil, rightText, List.append_assoc]

theorem leftJoin_finalize_foldl (L : List DiffSection) :
    ∀ st : List DiffSection × Option DiffSection,
      leftJoin (finalizeDiffs (L.foldl merge_diff st)) =
        leftJoin (finalizeDiffs st) ++ leftJoin L := by
  induction L with
  | nil => intro st; simp [leftJoin_nil]
  | cons d L ih =>
      intro st
      simp only [List.foldl_cons, ih, leftJoin_finalize_merge, leftJoin_cons,
        List.append_assoc]

theorem rightJoin_finalize_foldl (L : List DiffSection) :
    ∀ st : List DiffSection × Option DiffSection,
      rightJoin (finalizeDiffs (L.foldl merge_diff st)) =
        rightJoin (finalizeDiffs st) ++ rightJoin L := by
  induction L with
  | nil => intro st; simp [rightJoin_nil]
  | cons d L ih =>
      intro st
      simp only [List.foldl_cons, ih, rightJoin_finalize_merge, rightJoin_cons,
        List.append_assoc]

theorem leftJoin_runMerge (L : List DiffSection) :
    leftJoin (runMerge L) = leftJoin L := by
  simpa [runMerge, finalizeDiffs, leftJoin_nil] using
    leftJoin_finalize_foldl L ([], none)

theorem rightJoin_runMerge (L : List DiffSection) :
    rightJoin (runMerge L) = rightJoin L := by
  simpa [runMerge, finalizeDiffs, rightJoin_nil] using
    rightJoin_finalize_foldl L ([], none)

theorem leftJoin_classifyChars : ∀ l1 l2 : List Char,
    leftJoin (classifyChars l1 l2) = l1 := by
  intro l1
  induction l1 with
  | nil =>
      intro l2
      induction l2 with
      | nil => rfl
      | cons c r ih =>
          simp only [classifyChars, addedTail] at ih ⊢
          simp [leftJoin_cons, leftText, ih]
  | cons c r ih =>
      intro l2
      cases l2 with
      | nil => simp [classifyChars, leftJoin_cons, leftText, ih]
      | cons c2 r2 =>
          by_cases h : c = c2 <;>
            simp [classifyChars, h, leftJoin_cons, leftText, ih]

theorem rightJoin_classifyChars : ∀ l1 l2 : List Char,
    rightJoin (classifyChars l1 l2) = l2 := by
  intro l1
  induction l1 with
  | nil =>
      intro l2
      induction l2 with
      | nil => rfl
      | cons c r ih =>
          simp only [classifyChars, addedTail] at ih ⊢
          simp [rightJoin_cons, rightText, ih]
  | cons c r ih =>
      intro l2
      cases l2 with
      | nil => simp [classifyChars, rightJoin_cons, rightText, ih]
      | cons c2 r2 =>
          by_cases h : c = c2 <;>
            simp [classifyChars, h, rightJoin_cons, rightText, ih]

/-- **C5.** For every pair of line strings, concatenating in order the text
of every `Same` section, the left text of every `Modified` section and the
text of every `Removed` section produced by `calculate_line_diffs`
(`diff_lines`) reproduces the left input exactly, and the analogous
concatenation of `Same`, `Modified`-right and `Added` text reproduces the
right input exactly. -/
theorem diff_lines_roundtrip (line1 line2 : List Char) :
    leftJoin (calculate_line_diffs line1 line2) = line1 ∧
      rightJoin (calculate_line_diffs line1 line2) = line2 := by
  constructor
  · rw [calculate_line_diffs, leftJoin_runMerge, leftJoin_classifyChars]
  · rw [calculate_line_diffs, rightJoin_runMerge, rightJoin_classifyChars]

/-- The relation "adjacent sections have different kinds". -/
def KindNe (a b : DiffSection) : Prop := kindOf a ≠ kindOf b

/-- Invariant carried by the merge fold: either nothing has been produced
yet, or there is a pending section and the completed sections followed by
the pending one form a chain of pairwise distinct adjacent kinds. -/
def MergeInv (st : List DiffSection × Option DiffSection) : Prop :=
  (st.1 = [] ∧ st.2 = none) ∨
    ∃ d, st.2 = some d ∧ List.Chain' KindNe (st.1 ++ [d])

theorem kindOf_merge_same {a b : DiffSection} (h : kindOf a = kindOf b) :
    ∃ m, merge_diff (([] : List DiffSection), some a) b = ([], some m) ∧
      kindOf m = kindOf a := by
  cases a <;> cases b <;> simp_all [kindOf, merge_diff]

theorem merge_diff_of_kind_ne {ds : List DiffSection} {a b : DiffSection}
    (h : kindOf a ≠ kindOf b) :
    merge_diff (ds, some a) b = (ds ++ [a], some b) := by
  cases a <;> cases b <;> simp_all [kindOf, merge_diff]

theorem chain'_append_singleton {l : List DiffSection} {a b : DiffSection}
    (hl : List.Chain' KindNe (l ++ [a])) (hab : KindNe a b) :
    List.Chain' KindNe ((l ++ [a]) ++ [b]) := by
  rw [List.chain'_append]
  refine ⟨hl, List.chain'_singleton b, ?_⟩
  intro x hx y hy
  rw [List.getLast?_concat] at hx
  simp only [Option.mem_def, Option.some.injEq] at hx
  simp only [List.head?_cons, Option.mem_def, Option.some.injEq] at hy
  subst hx; subst hy; exact hab

theorem chain'_replace_last {l : List DiffSection} {a a' : DiffSection}
    (hl : List.Chain' KindNe (l ++ [a])) (h : kindOf a' = kindOf a) :
    List.Chain' KindNe (l ++ [a']) := by
  rw [List.chain'_append] at hl ⊢
  obtain ⟨h1, _, h3⟩ := hl
  refine ⟨h1, List.chain'_singleton a', ?_⟩
  intro x hx y hy
  simp only [List.head?_cons, Option.mem_def, Option.some.injEq] at hy
  subst hy
  have := h3 x hx a (by simp)
  simp only [KindNe, h]
  exact this

theorem mergeInv_step (st : List DiffSection × Option DiffSection)
    (new : DiffSection) (h : MergeInv st) : MergeInv (merge_diff st new) := by
  obtain ⟨ds, last⟩ := st
  cases last with
  | none =>
      obtain ⟨hds, _⟩ | ⟨d, hd, _⟩ := h
      · simp only at hds; subst hds
        cases new <;>
          exact Or.inr ⟨_, rfl, show List.Chain' KindNe [_] by simp⟩
      · exact Option.noConfusion hd
  | some d =>
      obtain ⟨_, hnone⟩ | ⟨d', hd', hchain⟩ := h
      · exact Option.noConfusion hnone
      · simp only [Option.some.injEq] at hd'
        subst hd'
        by_cases hk : kindOf d = kindOf new
        · obtain ⟨m, hm, hkm⟩ := kindOf_merge_same hk
          have hmerge : merge_diff (ds, some d) new = (ds, some m) := by
            cases d <;> cases new <;> simp_all [kindOf, merge_diff]
          rw [hmerge]
          exact Or.inr ⟨m, rfl, chain'_replace_last hchain (by rw [hkm])⟩
        · rw [merge_diff_of_kind_ne hk]
          exact Or.inr ⟨new, rfl, chain'_append_singleton hchain hk⟩

theorem mergeInv_foldl (L : List DiffSection) :
    ∀ st, MergeInv st → MergeInv (L.foldl merge_diff st) := by
  induction L with
  | nil => intro st h; exact h
  | cons d L ih => intro st h; exact ih _ (mergeInv_step st d h)

theorem chain'_runMerge (L : List DiffSection) :
    List.Chain' KindNe (runMerge L) := by
  have h := mergeInv_foldl L ([], none) (Or.inl ⟨rfl, rfl⟩)
  simp only [runMerge]
  rcases hEq : L.foldl merge_diff ([], none) with ⟨ds, last⟩
  rw [hEq] at h
  obtain ⟨h1, h2⟩ | ⟨d, hd, hchain⟩ := h
  · simp only at h1 h2
    subst h1; subst h2
    exact List.chain'_nil
  · simp only at hd
    subst hd
    simpa [finalizeDiffs] using hchain

theorem foldl_merge_of_chain' (rest : List DiffSection) :
    ∀ (d : DiffSection) (ds : List DiffSection),
      List.Chain' KindNe (d :: rest) →
      finalizeDiffs (rest.foldl merge_diff (ds, some d)) = ds ++ d :: rest := by
  induction rest with
  | nil => intro d ds _; simp [finalizeDiffs]
  | cons e rest ih =>
      intro d ds hchain
      have hde : KindNe d e := (List.chain'_cons.mp hchain).1
      have hrest : List.Chain' KindNe (e :: rest) := (List.chain'_cons.mp hchain).2
      simp only [List.foldl_cons, merge_diff_of_kind_ne hde]
      rw [ih e (ds ++ [d]) hrest]
      simp

theorem runMerge_of_chain' (L : List DiffSection)
    (h : List.Chain' KindNe L) : runMerge L = L := by
  cases L with
  | nil => rfl
  | cons d rest =>
      simp only [runMerge, List.foldl_cons]
      have h0 : merge_diff (([] : List DiffSection), none) d = ([], some d) := by
        simp [merge_diff]
      rw [h0, foldl_merge_of_chain' rest d [] h]
      simp

/-- **C6.** For every pair of line strings, no two consecutive sections
returned by `calculate_line_diffs` (`diff_lines`) have the same kind, and
re-running the same-kind merge step on the result leaves it unchanged. -/
theorem diff_lines_adjacent_kinds_and_merge_idempotent
    (line1 line2 : List Char) :
    List.Chain' KindNe (calculate_line_diffs line1 line2) ∧
      runMerge (calculate_line_diffs line1 line2) =
        calculate_line_diffs line1 line2 := by
  have h := chain'_runMerge (classifyChars line1 line2)
  exact ⟨h, runMerge_of_chain' _ h⟩

theorem calculate_diffs_addedLines (ls2 : List (List Char)) :
    ∀ i b, ls2.get? i = some b →
      (addedLines ls2).get? i = some [DiffSection.Added b] := by
  induction ls2 with
  | nil => intro i b h; simp at h
  | cons l r ih =>
      intro i b h
      cases i with
      | zero => simp_all [addedLines]
      | succ i => simpa [addedLines] using ih i b (by simpa using h)

theorem addedLines_length (ls2 : List (List Char)) :
    (addedLines ls2).length = ls2.length := by
  induction ls2 with
  | nil => rfl
  | cons l r ih => simp [addedLines, ih]

/-- **C8.** For every pair of line sequences, `calculate_diffs`
(`diff_line_pairs`) pairs them positionally: where both sides have a line it
applies `calculate_line_diffs` (`diff_lines`); where only the left side has
a line it emits a single `Removed` section wrapping that whole line; where
only the right side has a line it emits a single `Added` section. The
resulting table has one entry per index of the longer sequence. -/
theorem diff_line_pairs_positional (ls1 ls2 : List (List Char)) :
    (calculate_diffs ls1 ls2).length = max ls1.length ls2.length ∧
      (∀ i a b, ls1.get? i = some a → ls2.get? i = some b →
        (calculate_diffs ls1 ls2).get? i = some (calculate_line_diffs a b)) ∧
      (∀ i a, ls1.get? i = some a → ls2.get? i = none →
        (calculate_diffs ls1 ls2).get? i = some [DiffSection.Removed a]) ∧
      (∀ i b, ls1.get? i = none → ls2.get? i = some b →
        (calculate_diffs ls1 ls2).get? i = some [DiffSection.Added b]) := by
  induction ls1 generalizing ls2 with
  | nil =>
      refine ⟨?_, ?_, ?_, ?_⟩
      · simp [calculate_diffs, addedLines_length]
      · intro i a b h1 _; simp at h1
      · intro i a h1 _; simp at h1
      · intro i b _ h2
        simpa [calculate_diffs] using calculate_diffs_addedLines ls2 i b h2
  | cons l1 r1 ih =>
      cases ls2 with
      | nil =>
          obtain ⟨ihl, ihb, ihr, iha⟩ := ih ([] : List (List Char))
          refine ⟨?_, ?_, ?_, ?_⟩
          · simpa [calculate_diffs] using ihl
          · intro i a b _ h2; simp at h2
          · intro i a h1 _
            cases i with
            | zero => simp_all [calculate_diffs]
            | succ i =>
                simpa [calculate_diffs] using ihr i a (by simpa using h1) (by simp)
          · intro i b _ h2; simp at h2
      | cons l2 r2 =>
          obtain ⟨ihl, ihb, ihr, iha⟩ := ih r2
          refine ⟨?_, ?_, ?_, ?_⟩
          · simp [calculate_diffs, ihl, Nat.succ_max_succ]
          · intro i a b h1 h2
            cases i with
            | zero => simp_all [calculate_diffs]
            | succ i =>
                simpa [calculate_diffs] using
                  ihb i a b (by simpa using h1) (by simpa using h2)
          · intro i a h1 h2
            cases i with
            | zero => simp_all
            | succ i =>
                simpa [calculate_diffs] using
                  ihr i a (by simpa using h1) (by simpa using h2)
          · intro i b h1 h2
            cases i with
            | zero => simp_all
            | succ i =>
                simpa [calculate_diffs] using
                  iha i b (by simpa using h1) (by simpa using h2)

/-- The `match` classification used by both navigation functions: `Added`,
`Modified` and `Removed` sections qualify, `Same` does not. -/
def isDiffSection : DiffSection → Bool
  | DiffSection.Added _ => true
  | DiffSection.Modified _ _ => true
  | DiffSection.Same _ => false
  | DiffSection.Removed _ => true

/-- Rust slice `&v[i..]`: `none` models the out-of-range panic. -/
def sliceFrom {α : Type} (l : List α) (i : Nat) : Option (List α) :=
  if i ≤ l.length then some (l.drop i) else none

/-- Rust slice `&v[..i]`: `none` models the out-of-range panic. -/
def sliceTo {α : Type} (l : List α) (i : Nat) : Option (List α) :=
  if i ≤ l.length then some (l.take i) else none

/-- Inner loop of `State::find_next_diff` (`src/state.rs`): walk one line's
sections left to right, keeping the running offset (sum of left lengths of
the sections already passed), returning at the first qualifying section. -/
def findNextInLine (n ml mo : Nat) : Nat → List DiffSection → Option Nat
  | _, [] => none
  | off, d :: rest =>
    if isDiffSection d = true ∧ (mo < off ∨ ml < n) then some off
    else findNextInLine n ml mo (off + left_len d) rest

/-- Outer loop of `State::find_next_diff`: walk lines forward starting at
absolute line number `n`. -/
def findNextAux (ml mo : Nat) : Nat → List (List DiffSection) → Option (Nat × Nat)
  | _, [] => none
  | n, line :: rest =>
    match findNextInLine n ml mo 0 line with
    | some off => some (n, off)
    | none => findNextAux ml mo (n + 1) rest

/-- `State::find_next_diff` (`src/state.rs`): slices `line_diffs[ml..]`
(outer `none` = panic) and scans forward. -/
def find_next_diff (table : List (List DiffSection)) (ml mo : Nat) :
    Option (Option (Nat × Nat)) :=
  (sliceFrom table ml).map (findNextAux ml mo ml)

/-- Inner loop of `State::find_prev_diff` (`src/state.rs`), which iterates
the line's sections in reverse; the argument list here is the reversed
section list and the offset starts at the line width. -/
def findPrevInLineRev (n ml mo : Nat) : Nat → List DiffSection → Option Nat
  | _, [] => none
  | off, d :: rest =>
    if isDiffSection d = true ∧ (off < mo ∨ n < ml) then some off
    else findPrevInLineRev n ml mo (off - left_len d) rest

/-- Line width: `map(left_len).reduce(+).unwrap_or(0)` from `src/state.rs`. -/
def lineWidth (ds : List DiffSection) : Nat := (ds.map left_len).sum

/-- Outer loop of `State::find_prev_diff`: the input is the enumerated
slice in reverse order (largest line number first). -/
def findPrevAux (ml mo : Nat) : List (Nat × List DiffSection) → Option (Nat × Nat)
  | [] => none
  | (n, ds) :: rest =>
    match findPrevInLineRev n ml mo (lineWidth ds) ds.reverse with
    | some off => some (n, off)
    | none => findPrevAux ml mo rest

/-- `State::find_prev_diff` (`src/state.rs`): slices `line_diffs[..ml]`
(outer `none` = panic) and scans the enumerated slice backwards. -/
def find_prev_diff (table : List (List DiffSection)) (ml mo : Nat) :
    Option (Option (Nat × Nat)) :=
  (sliceTo table ml).map (fun t => findPrevAux ml mo t.enum.reverse)

/-- Pair every section of a line with its running start offset (the sum of
the left lengths of the sections before it), starting from `off`. -/
def sectionStartsAux (off : Nat) : List DiffSection → List (DiffSection × Nat)
  | [] => []
  | d :: rest => (d, off) :: sectionStartsAux (off + left_len d) rest

def sectionStarts (ds : List DiffSection) : List (DiffSection × Nat) :=
  sectionStartsAux 0 ds

/-- A qualifying target for `find_next_diff` from cursor `(ml, mo)`: an
`Added`/`Modified`/`Removed` section of line `l` whose running offset `off`
is strictly past `mo` on the starting line, or on any strictly later line. -/
def QualNext (table : List (List DiffSection)) (ml mo l off : Nat) : Prop :=
  ml ≤ l ∧ ∃ line, table.get? l = some line ∧
    ∃ d, (d, off) ∈ sectionStarts line ∧ isDiffSection d = true ∧
      (mo < off ∨ ml < l)

theorem sectionStartsAux_le {ds : List DiffSection} :
    ∀ {off : Nat} {d : DiffSection} {o : Nat},
      (d, o) ∈ sectionStartsAux off ds → off ≤ o := by
  induction ds with
  | nil => intro off d o h; simp [sectionStartsAux] at h
  | cons e rest ih =>
      intro off d o h
      simp only [sectionStartsAux, List.mem_cons, Prod.mk.injEq] at h
      rcases h with ⟨_, rfl⟩ | h
      · exact Nat.le_refl _
      · exact Nat.le_trans (Nat.le_add_right _ _) (ih h)

theorem findNextInLine_none {n ml mo : Nat} {ds : List DiffSection} :
    ∀ {off : Nat}, findNextInLine n ml mo off ds = none →
      ∀ d o, (d, o) ∈ sectionStartsAux off ds →
        ¬(isDiffSection d = true ∧ (mo < o ∨ ml < n)) := by
  induction ds with
  | nil => intro off _ d o h; simp [sectionStartsAux] at h
  | cons e rest ih =>
      intro off hnone d o hmem
      rw [findNextInLine] at hnone
      by_cases hc : isDiffSection e = true ∧ (mo < off ∨ ml < n)
      · rw [if_pos hc] at hnone; exact Option.noConfusion hnone
      · rw [if_neg hc] at hnone
        simp only [sectionStartsAux, List.mem_cons, Prod.mk.injEq] at hmem
        rcases hmem with ⟨rfl, rfl⟩ | hmem
        · exact hc
        · exact ih hnone d o hmem

theorem findNextInLine_some {n ml mo : Nat} {ds : List DiffSection} :
    ∀ {off o : Nat}, findNextInLine n ml mo off ds = some o →
      (∃ d, (d, o) ∈ sectionStartsAux off ds ∧ isDiffSection d = true ∧
        (mo < o ∨ ml < n)) ∧
      ∀ d' o', (d', o') ∈ sectionStartsAux off ds →
        isDiffSection d' = true → (mo < o' ∨ ml < n) → o ≤ o' := by
  induction ds with
  | nil => intro off o h; simp [findNextInLine] at h
  | cons e rest ih =>
      intro off o hsome
      rw [findNextInLine] at hsome
      by_cases hc : isDiffSection e = true ∧ (mo < off ∨ ml < n)
      · rw [if_pos hc] at hsome
        simp only [Option.some.injEq] at hsome
        subst hsome
        refine ⟨⟨e, by simp [sectionStartsAux], hc.1, hc.2⟩, ?_⟩
        intro d' o' hmem _ _
        exact sectionStartsAux_le hmem
      · rw [if_neg hc] at hsome
        obtain ⟨⟨d, hd, hdiff, hcond⟩, hmin⟩ := ih hsome
        refine ⟨⟨d, List.mem_cons_of_mem _ hd, hdiff, hcond⟩, ?_⟩
        intro d' o' hmem hdiff' hcond'
        simp only [sectionStartsAux, List.mem_cons, Prod.mk.injEq] at hmem
        rcases hmem with ⟨rfl, rfl⟩ | hmem
        · exact absurd ⟨hdiff', hcond'⟩ hc
        · exact hmin d' o' hmem hdiff' hcond'

theorem findNextAux_none {ml mo : Nat} {rest : List (List DiffSection)} :
    ∀ {n : Nat}, findNextAux ml mo n rest = none →
      ∀ j line, rest.get? j = some line →
        ∀ d o, (d, o) ∈ sectionStarts line →
          ¬(isDiffSection d = true ∧ (mo < o ∨ ml < n + j)) := by
  induction rest with
  | nil => intro n _ j line h; simp at h
  | cons line0 rest ih =>
      intro n hnone j line hline d o hmem
      rw [findNextAux] at hnone
      rcases hInner : findNextInLine n ml mo 0 line0 with _ | off
      · rw [hInner] at hnone
        cases j with
        | zero =>
            simp only [List.get?_cons_zero, Option.some.injEq] at hline
            subst hline
            simpa using findNextInLine_none hInner d o hmem
        | succ j =>
            have harith : n + (j + 1) = n + 1 + j := by omega
            rw [harith]
            exact ih hnone j line (by simpa using hline) d o hmem
      · rw [hInner] at hnone; exact Option.noConfusion hnone

theorem findNextAux_some {ml mo : Nat} {rest : List (List DiffSection)} :
    ∀ {n : Nat} {p : Nat × Nat}, findNextAux ml mo n rest = some p →
      n ≤ p.1 ∧
      (∃ line, rest.get? (p.1 - n) = some line ∧
        ∃ d, (d, p.2) ∈ sectionStarts line ∧ isDiffSection d = true ∧
          (mo < p.2 ∨ ml < p.1)) ∧
      ∀ j line, rest.get? j = some line →
        ∀ d o, (d, o) ∈ sectionStarts line → isDiffSection d = true →
          (mo < o ∨ ml < n + j) →
          (p.1 < n + j ∨ (p.1 = n + j ∧ p.2 ≤ o)) := by
  induction rest with
  | nil => intro n p h; simp [findNextAux] at h
  | cons line0 rest ih =>
      intro n p hsome
      rw [findNextAux] at hsome
      rcases hInner : findNextInLine n ml mo 0 line0 with _ | off
      · rw [hInner] at hsome
        obtain ⟨hle, ⟨line, hline, hexists⟩, hmin⟩ := ih hsome
        have hn1 : n + 1 ≤ p.1 := hle
        refine ⟨Nat.le_of_succ_le hn1, ⟨line, ?_, hexists⟩, ?_⟩
        · have : p.1 - n = (p.1 - (n + 1)) + 1 := by omega
          rw [this]
          simpa using hline
        · intro j line' hline' d o hmem hdiff hcond
          cases j with
          | zero =>
              simp only [List.get?_cons_zero, Option.some.injEq] at hline'
              subst hline'
              have := findNextInLine_none hInner d o hmem
              simp only [Nat.add_zero] at hcond
              exact absurd ⟨hdiff, hcond⟩ this
          | succ j =>
              have harith : n + (j + 1) = n + 1 + j := by omega
              rw [harith] at hcond ⊢
              exact hmin j line' (by simpa using hline') d o hmem hdiff hcond
      · rw [hInner] at hsome
        simp only [Option.some.injEq] at hsome
        subst hsome
        obtain ⟨⟨d, hd, hdiff, hcond⟩, hmin⟩ := findNextInLine_some hInner
        refine ⟨Nat.le_refl _, ⟨line0, by simp, d, hd, hdiff, hcond⟩, ?_⟩
        intro j line' hline' d' o hmem hdiff' hcond'
        cases j with
        | zero =>
            simp only [List.get?_cons_zero, Option.some.injEq] at hline'
            subst hline'
            right
            refine ⟨by simp, ?_⟩
            simp only [Nat.add_zero] at hcond'
            exact hmin d' o hmem hdiff' hcond'
        | succ j =>
            left
            omega

theorem find_next_diff_eq_aux {table : List (List DiffSection)} {ml mo : Nat}
    (h : ml ≤ table.length) :
    find_next_diff table ml mo = some (findNextAux ml mo ml (table.drop ml)) := by
  simp [find_next_diff, sliceFrom, h]

/-- **C7.** For a cursor with `from_line` within the table,
`find_next_diff` scans forward keeping per-line running offsets (sums of
left-side lengths) and returns the first `Added`/`Removed`/`Modified`
section strictly past `from_char_offset` on the starting line, or any such
section on a later line; it returns `None` (inner `none`) exactly when no
qualifying section exists, and otherwise returns the scan-order-first,
i.e. lexicographically least, qualifying position. -/
theorem find_next_diff_first_qualifying
    (table : List (List DiffSection)) (ml mo : Nat) (h : ml ≤ table.length) :
    (find_next_diff table ml mo = some none ↔
      ∀ l off, ¬QualNext table ml mo l off) ∧
    (∀ p : Nat × Nat, find_next_diff table ml mo = some (some p) ↔
      QualNext table ml mo p.1 p.2 ∧
      ∀ l off, QualNext table ml mo l off →
        (p.1 < l ∨ (p.1 = l ∧ p.2 ≤ off))) := by
  have hdropget : ∀ l, ml ≤ l → (table.drop ml).get? (l - ml) = table.get? l := by
    intro l hml
    rw [List.get?_drop]
    congr 1
    omega
  rcases hres : findNextAux ml mo ml (table.drop ml) with _ | q
  · have hnoqual : ∀ l off, ¬QualNext table ml mo l off := by
      intro l off ⟨hml, line, hline, d, hmem, hdiff, hcond⟩
      refine findNextAux_none hres (l - ml) line ?_ d off hmem ⟨hdiff, ?_⟩
      · rw [hdropget l hml]; exact hline
      · have : ml + (l - ml) = l := by omega
        rw [this]; exact hcond
    constructor
    · rw [find_next_diff_eq_aux h, hres]
      exact ⟨fun _ => hnoqual, fun _ => rfl⟩
    · intro p
      rw [find_next_diff_eq_aux h, hres]
      constructor
      · intro hbad; exact absurd hbad (by simp)
      · intro ⟨hqual, _⟩; exact absurd hqual (hnoqual p.1 p.2)
  · obtain ⟨hle, ⟨line, hline, d, hmem, hdiff, hcond⟩, hmin⟩ := findNextAux_some hres
    have hqualq : QualNext table ml mo q.1 q.2 := by
      refine ⟨hle, line, ?_, d, hmem, hdiff, hcond⟩
      rw [← hdropget q.1 hle]; exact hline
    have hminq : ∀ l off, QualNext table ml mo l off →
        (q.1 < l ∨ (q.1 = l ∧ q.2 ≤ off)) := by
      intro l off ⟨hml, line', hline', d', hmem', hdiff', hcond'⟩
      have harith : ml + (l - ml) = l := by omega
      have := hmin (l - ml) line' (by rw [hdropget l hml]; exact hline')
        d' off hmem' hdiff' (by rw [harith]; exact hcond')
      rw [harith] at this
      exact this
    constructor
    · rw [find_next_diff_eq_aux h, hres]
      constructor
      · intro hbad; exact absurd hbad (by simp)
      · intro hnone; exact absurd hqualq (hnone q.1 q.2)
    · intro p
      rw [find_next_diff_eq_aux h, hres]
      constructor
      · intro hp
        simp only [Option.some.injEq] at hp
        subst hp
        exact ⟨hqualq, hminq⟩
      · intro ⟨hqualp, hminp⟩
        have h1 := hminp q.1 q.2 hqualq
        have h2 := hminq p.1 p.2 hqualp
        have : p = q := by
          obtain ⟨p1, p2⟩ := p
          obtain ⟨q1, q2⟩ := q
          simp only [Prod.mk.injEq]
          omega
        rw [this]

/-- Witness for C7 at a concrete table: scanning from cursor `(0, 0)` of a
table whose second line holds a `Modified` section finds it at `(1, 0)`. -/
theorem find_next_diff_first_qualifying_witness :
    QualNext [[DiffSection.Same ['a']], [DiffSection.Modified ['b'] ['c']]] 0 0 1 0 ∧
      ∀ l off,
        QualNext [[DiffSection.Same ['a']], [DiffSection.Modified ['b'] ['c']]] 0 0 l off →
        (1 < l ∨ (1 = l ∧ 0 ≤ off)) :=
  ((find_next_diff_first_qualifying
      [[DiffSection.Same ['a']], [DiffSection.Modified ['b'] ['c']]] 0 0
      (by decide)).2 (1, 0)).mp (by decide)

/-- **C10.** `find_next_diff` and `find_prev_diff` slice the table at
`from_line`, so they panic (outer `none` in this model) exactly when
`from_line` exceeds the table length; under the precondition
`from_line ≤ length` no panic occurs. -/
theorem navigation_panics_iff_out_of_range
    (table : List (List DiffSection)) (ml mo : Nat) :
    (find_next_diff table ml mo = none ↔ table.length < ml) ∧
    (find_prev_diff table ml mo = none ↔ table.length < ml) := by
  constructor
  · by_cases h : ml ≤ table.length <;>
      simp [find_next_diff, sliceFrom, h] <;> omega
  · by_cases h : ml ≤ table.length <;>
      simp [find_prev_diff, sliceTo, h] <;> omega

/-- Does a line contain any `Added`/`Modified`/`Removed` section? -/
def hasDiffSection (ds : List DiffSection) : Bool := ds.any isDiffSection

/-- Running offset just past the last qualifying section of a line
(start offset plus that section's left length), scanning forward. -/
def lastDiffEndAux : Nat → Option Nat → List DiffSection → Option Nat
  | _, acc, [] => acc
  | off, acc, d :: rest =>
      lastDiffEndAux (off + left_len d)
        (if isDiffSection d then some (off + left_len d) else acc) rest

def lastDiffEnd (ds : List DiffSection) : Option Nat := lastDiffEndAux 0 none ds

theorem lineWidth_append (ds : List DiffSection) (d : DiffSection) :
    lineWidth (ds ++ [d]) = lineWidth ds + left_len d := by
  simp [lineWidth]

theorem lastDiffEndAux_concat (d : DiffSection) :
    ∀ (xs : List DiffSection) (off : Nat) (acc : Option Nat),
      lastDiffEndAux off acc (xs ++ [d]) =
        if isDiffSection d then some (off + lineWidth xs + left_len d)
        else lastDiffEndAux off acc xs := by
  intro xs
  induction xs with
  | nil =>
      intro off acc
      simp [lastDiffEndAux, lineWidth]
  | cons e xs ih =>
      intro off acc
      simp only [List.cons_append, lastDiffEndAux, List.append_eq]
      rw [ih]
      have harith : off + left_len e + lineWidth xs = off + lineWidth (e :: xs) := by
        simp [lineWidth]
        omega
      rw [harith]

theorem lastDiffEnd_concat (ds : List DiffSection) (d : DiffSection) :
    lastDiffEnd (ds ++ [d]) =
      if isDiffSection d then some (lineWidth ds + left_len d)
      else lastDiffEnd ds := by
  have h := lastDiffEndAux_concat d ds 0 none
  simpa [lastDiffEnd] using h

theorem lastDiffEndAux_isSome :
    ∀ (ds : List DiffSection) (off : Nat) (acc : Option Nat),
      (lastDiffEndAux off acc ds).isSome = (acc.isSome || ds.any isDiffSection) := by
  intro ds
  induction ds with
  | nil => intro off acc; simp [lastDiffEndAux]
  | cons d rest ih =>
      intro off acc
      cases hd : isDiffSection d <;>
        simp [lastDiffEndAux, hd, ih, Bool.or_assoc]

theorem lastDiffEnd_isSome (ds : List DiffSection) :
    (lastDiffEnd ds).isSome = hasDiffSection ds := by
  simpa [lastDiffEnd, hasDiffSection] using lastDiffEndAux_isSome ds 0 none

theorem lastDiffEnd_eq_none_of_no_diff {ds : List DiffSection}
    (h : hasDiffSection ds = false) : lastDiffEnd ds = none := by
  have := lastDiffEnd_isSome ds
  rw [h] at this
  exact Option.not_isSome_iff_eq_none.mp (by simp [this])

theorem hasDiffSection_of_lastDiffEnd_some {ds : List DiffSection} {w : Nat}
    (h : lastDiffEnd ds = some w) : hasDiffSection ds = true := by
  have := lastDiffEnd_isSome ds
  rw [h] at this
  simpa using this.symm

/-- On a line strictly before the cursor line the offset test of
`find_prev_diff` is vacuous, so the reverse scan finds exactly the last
qualifying section, reported at the offset just past its left text. -/
theorem findPrevInLineRev_eq_lastDiffEnd {n ml : Nat} (mo : Nat) (h : n < ml) :
    ∀ ds : List DiffSection,
      findPrevInLineRev n ml mo (lineWidth ds) ds.reverse = lastDiffEnd ds := by
  intro ds
  induction ds using List.reverseRecOn with
  | nil => rfl
  | append_singleton ds d ih =>
      rw [List.reverse_append]
      simp only [List.reverse_singleton, List.singleton_append,
        lineWidth_append, findPrevInLineRev, lastDiffEnd_concat]
      cases hd : isDiffSection d with
      | true =>
          rw [if_pos ⟨rfl, Or.inr h⟩]
          simp
      | false =>
          rw [if_neg (by simp [hd])]
          rw [Nat.add_sub_cancel]
          exact ih

/-- No line strictly below index `m` contains a qualifying section. -/
def NoDiffBelow (table : List (List DiffSection)) (m : Nat) : Prop :=
  ∀ l, l < m → ∀ line, table.get? l = some line → hasDiffSection line = false

/-- Characterisation of a `find_prev_diff` hit when scanning the lines
strictly below `m`: `p.1` is the nearest line below `m` containing a
qualifying section and `p.2` the offset just past that line's last
qualifying section. -/
def PrevSpec (table : List (List DiffSection)) (m : Nat) (p : Nat × Nat) : Prop :=
  p.1 < m ∧
    (∃ line, table.get? p.1 = some line ∧ lastDiffEnd line = some p.2) ∧
    ∀ l, p.1 < l → l < m → ∀ line, table.get? l = some line →
      hasDiffSection line = false

theorem take_enum_reverse_succ {table : List (List DiffSection)} {m : Nat}
    {line : List DiffSection} (h : table.get? m = some line) :
    (table.take (m + 1)).enum.reverse =
      (m, line) :: (table.take m).enum.reverse := by
  have hm : m < table.length := by
    by_contra hc
    rw [List.get?_eq_none.mpr (by omega)] at h
    exact Option.noConfusion h
  have htake : table.take (m + 1) = table.take m ++ [line] := by
    rw [List.take_succ]
    have : table[m]? = some line := by
      rw [← List.get?_eq_getElem?]
      exact h
    rw [this]
    rfl
  have hlen : (table.take m).length = m := by
    simp [List.length_take]
    omega
  rw [htake]
  have henum : (table.take m ++ [line]).enum =
      (table.take m).enum ++ [(m, line)] := by
    simp only [List.enum]
    rw [List.enumFrom_append]
    simp [hlen]
  rw [henum, List.reverse_append]
  simp

theorem findPrevAux_take_characterisation
    (table : List (List DiffSection)) (ml mo : Nat) :
    ∀ m, m ≤ ml → m ≤ table.length →
      (findPrevAux ml mo ((table.take m).enum.reverse) = none ↔
        NoDiffBelow table m) ∧
      (∀ p, findPrevAux ml mo ((table.take m).enum.reverse) = some p ↔
        PrevSpec table m p) := by
  intro m
  induction m with
  | zero =>
      intro _ _
      constructor
      · simp only [List.take_zero, List.enum_nil, List.reverse_nil]
        exact ⟨fun _ l hl => absurd hl (by omega), fun _ => rfl⟩
      · intro p
        simp only [List.take_zero, List.enum_nil, List.reverse_nil]
        constructor
        · intro hbad; exact absurd hbad (by simp [findPrevAux])
        · intro ⟨h1, _⟩; omega
  | succ m ih =>
      intro hml hlen
      obtain ⟨line, hline⟩ : ∃ line, table.get? m = some line := by
        cases hg : table.get? m with
        | none =>
            have := List.get?_eq_none.mp hg
            omega
        | some line => exact ⟨line, rfl⟩
      rw [take_enum_reverse_succ hline]
      have hmml : m < ml := by omega
      have hinner := findPrevInLineRev_eq_lastDiffEnd mo hmml line
      obtain ⟨ihn, ihs⟩ := ih (by omega) (by omega)
      cases hld : lastDiffEnd line with
      | some w =>
          have hres : findPrevAux ml mo ((m, line) :: (table.take m).enum.reverse) =
              some (m, w) := by
            rw [findPrevAux, hinner, hld]
          have hhas : hasDiffSection line = true :=
            hasDiffSection_of_lastDiffEnd_some hld
          constructor
          · rw [hres]
            constructor
            · intro hbad; exact Option.noConfusion hbad
            · intro hnd
              have := hnd m (by omega) line hline
              rw [hhas] at this
              exact Bool.noConfusion this
          · intro p
            rw [hres]
            constructor
            · intro hp
              simp only [Option.some.injEq] at hp
              subst hp
              exact ⟨by omega, ⟨line, hline, hld⟩, fun l h1 h2 _ _ => by omega⟩
            · intro ⟨hp1, ⟨line', hline', hld'⟩, hgap⟩
              rcases Nat.lt_or_ge p.1 m with hlt | hge
              · have := hgap m hlt (by omega) line hline
                rw [hhas] at this
                exact Bool.noConfusion this
              · have hp1m : p.1 = m := by omega
                subst hp1m
                rw [hline] at hline'
                simp only [Option.some.injEq] at hline'
                subst hline'
                rw [hld] at hld'
                simp only [Option.some.injEq] at hld'
                subst hld'
                rfl
      | none =>
          have hres : findPrevAux ml mo ((m, line) :: (table.take m).enum.reverse) =
              findPrevAux ml mo ((table.take m).enum.reverse) := by
            rw [findPrevAux, hinner, hld]
          have hhas : hasDiffSection line = false := by
            have := lastDiffEnd_isSome line
            rw [hld] at this
            simpa using this.symm
          constructor
          · rw [hres, ihn]
            constructor
            · intro hnd l hl line' hline'
              rcases Nat.lt_or_ge l m with hlt | hge
              · exact hnd l hlt line' hline'
              · have hlm : l = m := by omega
                subst hlm
                rw [hline] at hline'
                simp only [Option.some.injEq] at hline'
                subst hline'
                exact hhas
            · intro hnd l hl line' hline'
              exact hnd l (by omega) line' hline'
          · intro p
            rw [hres, ihs p]
            constructor
            · intro ⟨hp1, hex, hgap⟩
              refine ⟨by omega, hex, ?_⟩
              intro l h1 h2 line' hline'
              rcases Nat.lt_or_ge l m with hlt | hge
              · exact hgap l h1 hlt line' hline'
              · have hlm : l = m := by omega
                subst hlm
                rw [hline] at hline'
                simp only [Option.some.injEq] at hline'
                subst hline'
                exact hhas
            · intro ⟨hp1, ⟨line', hline', hld'⟩, hgap⟩
              have hp1m : p.1 ≠ m := by
                intro hc
                subst hc
                rw [hline] at hline'
                simp only [Option.some.injEq] at hline'
                subst hline'
                rw [hld] at hld'
                exact Option.noConfusion hld'
              refine ⟨by omega, ⟨line', hline', hld'⟩, ?_⟩
              intro l h1 h2 line'' hline''
              exact hgap l h1 (by omega) line'' hline''

/-- **C3 (amended).** `find_prev_diff` scans only the lines strictly before
`from_line` — the starting line itself is never scanned and, because every
scanned line is strictly before `from_line`, the offset test is vacuous and
`from_char_offset` never affects the result. Within each scanned line the
running offset is computed from the line width downward, so a hit is
reported at the offset just past the last qualifying section's left text
(`lastDiffEnd`), on the nearest earlier line containing a qualifying
section; `None` is returned exactly when no line strictly before
`from_line` contains an `Added`/`Removed`/`Modified` section. -/
theorem find_prev_diff_characterisation
    (table : List (List DiffSection)) (ml mo : Nat) (h : ml ≤ table.length) :
    (find_prev_diff table ml mo = some none ↔ NoDiffBelow table ml) ∧
    (∀ p, find_prev_diff table ml mo = some (some p) ↔ PrevSpec table ml p) ∧
    (∀ mo', find_prev_diff table ml mo' = find_prev_diff table ml mo) := by
  have heq : ∀ mo0, find_prev_diff table ml mo0 =
      some (findPrevAux ml mo0 ((table.take ml).enum.reverse)) := by
    intro mo0
    simp [find_prev_diff, sliceTo, h]
  obtain ⟨cn, cs⟩ :=
    findPrevAux_take_characterisation table ml mo ml (Nat.le_refl ml) h
  refine ⟨?_, ?_, ?_⟩
  · rw [heq mo]
    simp only [Option.some.injEq]
    exact cn
  · intro p
    rw [heq mo]
    simp only [Option.some.injEq]
    exact cs p
  · intro mo'
    obtain ⟨cn', cs'⟩ :=
      findPrevAux_take_characterisation table ml mo' ml (Nat.le_refl ml) h
    rw [heq mo, heq mo']
    cases hm : findPrevAux ml mo ((table.take ml).enum.reverse) with
    | none => rw [cn'.mpr (cn.mp hm)]
    | some p => rw [(cs' p).mpr ((cs p).mp hm)]

/-- Witness for the amended C3 at a concrete table: from cursor `(2, 0)`
the previous qualifying section of line 0 is reported at offset 1, the end
of its `Modified` left text. -/
theorem find_prev_diff_characterisation_witness :
    PrevSpec [[DiffSection.Modified ['a'] ['b']], [DiffSection.Same ['x']]] 2 (0, 1) :=
  ((find_prev_diff_characterisation
      [[DiffSection.Modified ['a'] ['b']], [DiffSection.Same ['x']]] 2 0
      (by decide)).2.1 (0, 1)).mp (by decide)

/-- **C3 counterexample.** The claim says `find_prev_diff` also considers a
qualifying section earlier on the starting line itself: with the cursor at
`(0, 5)` and a `Modified` section starting at offset 0 of line 0 — strictly
before the cursor — it would have to return that section, but the code
slices `[..from_line]`, never scans the starting line, and returns `None`. -/
theorem find_prev_diff_starting_line_counterexample :
    find_prev_diff [[DiffSection.Modified ['a'] ['b']]] 0 5 = some none ∧
      ([[DiffSection.Modified ['a'] ['b']]] :
        List (List DiffSection)).get? 0 = some [DiffSection.Modified ['a'] ['b']] ∧
      isDiffSection (DiffSection.Modified ['a'] ['b']) = true ∧ (0 : Nat) < 5 := by
  decide

/-- `BufRead::read_line`: split off one line (terminator included when
present) from the not-yet-consumed stream; a zero-length result models
end-of-file. -/
def readLine : List Char → List Char × List Char
  | [] => ([], [])
  | c :: rest =>
      if c = Char.ofNat 10 then ([c], rest)
      else (c :: (readLine rest).1, (readLine rest).2)

/-- Stream state after `k` reads. -/
def streamAt (f : List Char) : Nat → List Char
  | 0 => f
  | k + 1 => (readLine (streamAt f k)).2

/-- The `k`-th line read from stream `f` (empty once the stream is done). -/
def nthLine (f : List Char) (k : Nat) : List Char := (readLine (streamAt f k)).1

/-- Running byte offset before the `k`-th line is read: total length of the
lines read so far. -/
def offAt (f : List Char) : Nat → Nat
  | 0 => 0
  | k + 1 => offAt f k + (nthLine f k).length

/-- The lines of a file (each line keeps its terminator; a final
unterminated line counts). -/
def splitLines : List Char → List (List Char)
  | [] => []
  | c :: rest =>
      if c = Char.ofNat 10 then [c] :: splitLines rest
      else
        match splitLines rest with
        | [] => [[c]]
        | l :: ls => (c :: l) :: ls

def numLines (f : List Char) : Nat := (splitLines f).length

theorem readLine_append : ∀ s : List Char, (readLine s).1 ++ (readLine s).2 = s := by
  intro s
  induction s with
  | nil => rfl
  | cons c rest ih =>
      rw [readLine]
      by_cases hc : c = Char.ofNat 10
      · rw [if_pos hc]; rfl
      · rw [if_neg hc]
        simpa using ih

theorem readLine_fst_eq_nil {s : List Char} : (readLine s).1 = [] ↔ s = [] := by
  cases s with
  | nil => simp [readLine]
  | cons c rest =>
      rw [readLine]
      by_cases hc : c = Char.ofNat 10
      · rw [if_pos hc]; simp
      · rw [if_neg hc]; simp

theorem readLine_nil : readLine ([] : List Char) = ([], []) := rfl

theorem readLine_snd_of_nil {s : List Char} (h : s = []) : (readLine s).2 = [] := by
  subst h; rfl

theorem splitLines_eq_nil {s : List Char} : splitLines s = [] ↔ s = [] := by
  cases s with
  | nil => simp [splitLines]
  | cons c rest =>
      rw [splitLines]
      by_cases hc : c = Char.ofNat 10
      · rw [if_pos hc]; simp
      · rw [if_neg hc]
        cases splitLines rest <;> simp

theorem splitLines_cons : ∀ {s : List Char}, s ≠ [] →
    splitLines s = (readLine s).1 :: splitLines (readLine s).2 := by
  intro s
  induction s with
  | nil => intro h; exact absurd rfl h
  | cons c rest ih =>
      intro _
      rw [splitLines, readLine]
      by_cases hc : c = Char.ofNat 10
      · rw [if_pos hc, if_pos hc]
      · rw [if_neg hc, if_neg hc]
        by_cases hr : rest = []
        · subst hr
          simp [splitLines, readLine]
        · rw [ih hr]

theorem numLines_pos_step {s : List Char} (h : s ≠ []) :
    numLines s = numLines ((readLine s).2) + 1 := by
  rw [numLines, splitLines_cons h]
  simp [numLines]

theorem streamAt_succ_outer (f : List Char) (k : Nat) :
    streamAt f (k + 1) = (readLine (streamAt f k)).2 := rfl

theorem numLines_streamAt (f : List Char) :
    ∀ k : Nat, numLines (streamAt f k) = numLines f - k := by
  intro k
  induction k with
  | zero => rfl
  | succ k ih =>
      rw [streamAt_succ_outer]
      by_cases h : streamAt f k = []
      · rw [readLine_snd_of_nil h]
        have h0 : numLines f - k = 0 := by
          rw [← ih, h]
          rfl
        have : numLines f - (k + 1) = 0 := by omega
        rw [this]
        rfl
      · have := numLines_pos_step h
        omega

theorem streamAt_eq_nil_iff {f : List Char} {k : Nat} :
    streamAt f k = [] ↔ numLines f ≤ k := by
  constructor
  · intro h
    have := numLines_streamAt f k
    rw [h] at this
    have h0 : numLines ([] : List Char) = 0 := rfl
    omega
  · intro h
    have := numLines_streamAt f k
    have h0 : numLines (streamAt f k) = 0 := by omega
    rw [numLines] at h0
    exact splitLines_eq_nil.mp (List.length_eq_zero.mp h0)

theorem nthLine_eq_nil_iff {f : List Char} {k : Nat} :
    nthLine f k = [] ↔ numLines f ≤ k := by
  rw [nthLine, readLine_fst_eq_nil, streamAt_eq_nil_iff]

theorem streamAt_length_split (f : List Char) (k : Nat) :
    (nthLine f k).length + (streamAt f (k + 1)).length = (streamAt f k).length := by
  rw [nthLine, streamAt_succ_outer]
  have := readLine_append (streamAt f k)
  calc (readLine (streamAt f k)).1.length + (readLine (streamAt f k)).2.length
      = ((readLine (streamAt f k)).1 ++ (readLine (streamAt f k)).2).length := by
        simp
    _ = (streamAt f k).length := by rw [this]

/-- `DiffPosition` as constructed by the indexing loop in `src/main.rs`
(`line_index`, `line_offset` — the spec's `char_offset` —, and each file's
running byte offset captured before the mismatching line was consumed). -/
structure DiffPosition where
  line_index : Nat
  line_offset : Nat
  file1_offset : Nat
  file2_offset : Nat
deriving DecidableEq, Repr

/-- The `find_offset` closure of `src/main.rs`: enumerate the
`zip_longest` of the two lines' characters, returning the offset of the
first differing or one-sided pair, and 0 if the loop completes. -/
def find_offset_aux (offset : Nat) : List Char → List Char → Nat
  | c1 :: r1, c2 :: r2 =>
      if c1 ≠ c2 then offset else find_offset_aux (offset + 1) r1 r2
  | [], [] => 0
  | _ :: _, [] => offset
  | [], _ :: _ => offset

def find_offset (line1 line2 : List Char) : Nat := find_offset_aux 0 line1 line2

/-- The loop-control decision at the top of each iteration of the indexing
loop (`src/main.rs` lines 51–58): `none` means `break`; `some e` means
continue with budget `e`. -/
def loopControl (len1 len2 extra : Nat) : Option Nat :=
  if len1 = 0 ∨ len2 = 0 then
    if 0 < extra then some (extra - 1) else none
  else some extra

/-- Everything the indexing loop of `src/main.rs` has produced when it
exits: the two offset indices, the first recorded divergence, the lengths
of the final (unprocessed) reads, the final value of `line_index`, and the
final unread stream contents. -/
structure IndexerResult where
  pos1 : List Nat
  pos2 : List Nat
  firstDiff : Option DiffPosition
  lastLen1 : Nat
  lastLen2 : Nat
  finalIndex : Nat
  rem1 : List Char
  rem2 : List Char
deriving DecidableEq, Repr

/-- The indexing loop of `src/main.rs` (lines 49–108).  `l1`/`l2` are the
lines just read, `rem1`/`rem2` the unread stream contents; `fuel` is a
structural-recursion bound that `runIndexer` instantiates so that (as
proved by `indexLoop_spec`) it can never reach 0 before the loop breaks. -/
def indexLoop : Nat → List Char → List Char → List Char → List Char →
    Nat → List Nat → List Nat → Option DiffPosition → Nat → Nat → Nat →
    IndexerResult
  | 0, l1, l2, rem1, rem2, idx, p1, p2, fd, _, _, _ =>
      ⟨p1, p2, fd, l1.length, l2.length, idx, rem1, rem2⟩
  | fuel + 1, l1, l2, rem1, rem2, idx, p1, p2, fd, off1, off2, extra =>
      match loopControl l1.length l2.length extra with
      | none => ⟨p1, p2, fd, l1.length, l2.length, idx, rem1, rem2⟩
      | some extra' =>
          indexLoop fuel (readLine rem1).1 (readLine rem2).1
            (readLine rem1).2 (readLine rem2).2 (idx + 1)
            (if l1.length ≠ 0 then p1 ++ [off1] else p1)
            (if l2.length ≠ 0 then p2 ++ [off2] else p2)
            (if l1 ≠ l2 ∧ fd = none then
              some ⟨idx, find_offset l1 l2, off1, off2⟩ else fd)
            (off1 + l1.length) (off2 + l2.length) extra'

/-- Run the indexing loop on two whole files, as `main` does: prime one
read from each file, then loop with `extra_line_count = 20`. -/
def runIndexer (f1 f2 : List Char) : IndexerResult :=
  indexLoop (f1.length + f2.length + 21)
    (readLine f1).1 (readLine f2).1 (readLine f1).2 (readLine f2).2
    0 [] [] none 0 0 20

/-- The summary printed after the loop (`src/main.rs` lines 110–128). -/
def summary (r : IndexerResult) : String :=
  if r.lastLen1 = 0 ∧ r.lastLen2 = 0 then "Both files are the same length"
  else if r.lastLen1 = 0 then "File 2 is longer"
  else "File 1 is longer"

/-- Index of the iteration at which the loop breaks, starting from
iteration `idx` with budget `extra`: the budget starts draining at the
first iteration where either file is exhausted. -/
def stopIndex (f1 f2 : List Char) (idx extra : Nat) : Nat :=
  max idx (min (numLines f1) (numLines f2)) + extra

/-- The offsets the loop appends for file `f` over iterations
`[idx, stop)`: one entry per iteration in which `f` still yields a
non-empty read. -/
def posSpec (f : List Char) (idx stop : Nat) : List Nat :=
  (List.range' idx (min (numLines f) stop - idx)).map (offAt f)

/-- The `DiffPosition` the loop records at iteration `k`. -/
def diffAt (f1 f2 : List Char) (k : Nat) : DiffPosition :=
  ⟨k, find_offset (nthLine f1 k) (nthLine f2 k), offAt f1 k, offAt f2 k⟩

/-- The first divergence found when comparing lines `[idx, stop)`. -/
def firstDiffSpec (f1 f2 : List Char) (idx stop : Nat) : Option DiffPosition :=
  ((List.range' idx (stop - idx)).find?
      (fun k => nthLine f1 k != nthLine f2 k)).map (diffAt f1 f2)

theorem posSpec_nil {f : List Char} {idx stop : Nat}
    (h : min (numLines f) stop ≤ idx) : posSpec f idx stop = [] := by
  have : min (numLines f) stop - idx = 0 := by omega
  rw [posSpec, this]
  rfl

theorem posSpec_step {f : List Char} {idx stop : Nat}
    (h1 : idx < numLines f) (h2 : idx < stop) :
    posSpec f idx stop = offAt f idx :: posSpec f (idx + 1) stop := by
  have hmin : idx < min (numLines f) stop := by omega
  have : min (numLines f) stop - idx = (min (numLines f) stop - (idx + 1)) + 1 := by
    omega
  rw [posSpec, this, List.range'_succ idx _ 1, List.map_cons]
  rfl

theorem firstDiffSpec_nil {f1 f2 : List Char} {idx stop : Nat}
    (h : stop ≤ idx) : firstDiffSpec f1 f2 idx stop = none := by
  have : stop - idx = 0 := by omega
  rw [firstDiffSpec, this]
  rfl

theorem firstDiffSpec_step {f1 f2 : List Char} {idx stop : Nat}
    (h : idx < stop) :
    firstDiffSpec f1 f2 idx stop =
      if nthLine f1 idx ≠ nthLine f2 idx then some (diffAt f1 f2 idx)
      else firstDiffSpec f1 f2 (idx + 1) stop := by
  have harith : stop - idx = (stop - (idx + 1)) + 1 := by omega
  rw [firstDiffSpec, harith, List.range'_succ idx _ 1]
  by_cases hne : nthLine f1 idx ≠ nthLine f2 idx
  · rw [if_pos hne, List.find?_cons_of_pos _ (by simpa [bne] using hne)]
    rfl
  · rw [if_neg hne, List.find?_cons_of_neg _ (by simpa [bne] using hne)]
    rfl

theorem nthLine_length_zero_iff {f : List Char} {k : Nat} :
    (nthLine f k).length = 0 ↔ numLines f ≤ k := by
  rw [List.length_eq_zero, nthLine_eq_nil_iff]

/-- One-iteration bookkeeping for an offset index: appending the offset
when the read is non-empty matches shrinking the `posSpec` window. -/
theorem posSpec_step_append (f : List Char) (p : List Nat) {idx S : Nat}
    (hS : idx < S) :
    (if (nthLine f idx).length ≠ 0 then p ++ [offAt f idx] else p) ++
        posSpec f (idx + 1) S = p ++ posSpec f idx S := by
  by_cases hn : (nthLine f idx).length = 0
  · rw [if_neg (by simpa using hn)]
    have hle : numLines f ≤ idx := nthLine_length_zero_iff.mp hn
    rw [posSpec_nil (le_trans (min_le_left _ _) hle),
      posSpec_nil (le_trans (min_le_left _ _) (by omega))]
  · rw [if_pos (by simpa using hn)]
    have hlt : idx < numLines f := by
      have : ¬ numLines f ≤ idx := fun hc => hn (nthLine_length_zero_iff.mpr hc)
      omega
    rw [posSpec_step hlt hS]
    simp

/-- One-iteration bookkeeping for the recorded first divergence. -/
theorem firstDiff_step_record (f1 f2 : List Char) (fd : Option DiffPosition)
    {idx S : Nat} (hS : idx < S) :
    (match (if nthLine f1 idx ≠ nthLine f2 idx ∧ fd = none then
        some (⟨idx, find_offset (nthLine f1 idx) (nthLine f2 idx),
          offAt f1 idx, offAt f2 idx⟩ : DiffPosition) else fd) with
      | some d => some d
      | none => firstDiffSpec f1 f2 (idx + 1) S) =
    (match fd with
      | some d => some d
      | none => firstDiffSpec f1 f2 idx S) := by
  cases fd with
  | some d => rw [if_neg (by simp)]
  | none =>
      by_cases hne : nthLine f1 idx ≠ nthLine f2 idx
      · rw [if_pos ⟨hne, rfl⟩]
        show some _ = firstDiffSpec f1 f2 idx S
        rw [firstDiffSpec_step hS, if_pos hne]
        rfl
      · rw [if_neg (by simp [hne])]
        show firstDiffSpec f1 f2 (idx + 1) S = firstDiffSpec f1 f2 idx S
        rw [firstDiffSpec_step hS, if_neg hne]

/-- Full characterisation of the indexing loop, by induction on the fuel:
starting at iteration `idx` with budget `extra` (and streams positioned
after `idx` reads), the loop breaks at iteration `stopIndex`, appends
exactly the offsets `posSpec` describes, and records the first divergence
among the compared iterations. -/
theorem indexLoop_spec (f1 f2 : List Char) :
    ∀ (fuel idx extra : Nat) (p1 p2 : List Nat) (fd : Option DiffPosition),
      (streamAt f1 idx).length + (streamAt f2 idx).length + extra + 1 ≤ fuel →
      indexLoop fuel (nthLine f1 idx) (nthLine f2 idx)
          (streamAt f1 (idx + 1)) (streamAt f2 (idx + 1)) idx p1 p2 fd
          (offAt f1 idx) (offAt f2 idx) extra =
        ⟨p1 ++ posSpec f1 idx (stopIndex f1 f2 idx extra),
         p2 ++ posSpec f2 idx (stopIndex f1 f2 idx extra),
         (match fd with
          | some d => some d
          | none => firstDiffSpec f1 f2 idx (stopIndex f1 f2 idx extra)),
         (nthLine f1 (stopIndex f1 f2 idx extra)).length,
         (nthLine f2 (stopIndex f1 f2 idx extra)).length,
         stopIndex f1 f2 idx extra,
         streamAt f1 (stopIndex f1 f2 idx extra + 1),
         streamAt f2 (stopIndex f1 f2 idx extra + 1)⟩ := by
  intro fuel
  induction fuel with
  | zero =>
      intro idx extra p1 p2 fd hfuel
      omega
  | succ fuel ih =>
      intro idx extra p1 p2 fd hfuel
      by_cases hz : (nthLine f1 idx).length = 0 ∨ (nthLine f2 idx).length = 0
      · have hminle : min (numLines f1) (numLines f2) ≤ idx := by
          rcases hz with hz | hz
          · exact min_le_iff.mpr (Or.inl (nthLine_length_zero_iff.mp hz))
          · exact min_le_iff.mpr (Or.inr (nthLine_length_zero_iff.mp hz))
        by_cases hx : 0 < extra
        · -- budget not exhausted: decrement and continue
          have hctl : loopControl (nthLine f1 idx).length
              (nthLine f2 idx).length extra = some (extra - 1) := by
            rw [loopControl, if_pos hz, if_pos hx]
          rw [indexLoop, hctl]
          have hstop : stopIndex f1 f2 (idx + 1) (extra - 1) =
              stopIndex f1 f2 idx extra := by
            rw [stopIndex, stopIndex]
            omega
          have hfuel' : (streamAt f1 (idx + 1)).length +
              (streamAt f2 (idx + 1)).length + (extra - 1) + 1 ≤ fuel := by
            have h1 := streamAt_length_split f1 idx
            have h2 := streamAt_length_split f2 idx
            omega
          have hS : idx < stopIndex f1 f2 idx extra := by
            rw [stopIndex]
            omega
          refine (ih (idx + 1) (extra - 1) _ _ _ hfuel').trans ?_
          rw [hstop]
          congr 1
          · exact posSpec_step_append f1 p1 hS
          · exact posSpec_step_append f2 p2 hS
          · exact firstDiff_step_record f1 f2 fd hS
        · -- budget exhausted: the loop breaks at this iteration
          have hctl : loopControl (nthLine f1 idx).length
              (nthLine f2 idx).length extra = none := by
            rw [loopControl, if_pos hz, if_neg hx]
          have hstop : stopIndex f1 f2 idx extra = idx := by
            rw [stopIndex]
            omega
          rw [indexLoop, hctl, hstop,
            posSpec_nil (min_le_right (numLines f1) idx),
            posSpec_nil (min_le_right (numLines f2) idx),
            firstDiffSpec_nil (Nat.le_refl idx)]
          cases fd <;> simp
      · -- both reads non-empty: continue with the budget unchanged
        have hz1 : (nthLine f1 idx).length ≠ 0 := fun hc => hz (Or.inl hc)
        have hz2 : (nthLine f2 idx).length ≠ 0 := fun hc => hz (Or.inr hc)
        have hctl : loopControl (nthLine f1 idx).length
            (nthLine f2 idx).length extra = some extra := by
          rw [loopControl, if_neg hz]
        rw [indexLoop, hctl]
        have hlt1 : idx < numLines f1 := by
          have : ¬ numLines f1 ≤ idx := fun hc => hz1 (nthLine_length_zero_iff.mpr hc)
          omega
        have hlt2 : idx < numLines f2 := by
          have : ¬ numLines f2 ≤ idx := fun hc => hz2 (nthLine_length_zero_iff.mpr hc)
          omega
        have hstop : stopIndex f1 f2 (idx + 1) extra =
            stopIndex f1 f2 idx extra := by
          rw [stopIndex, stopIndex]
          omega
        have hfuel' : (streamAt f1 (idx + 1)).length +
            (streamAt f2 (idx + 1)).length + extra + 1 ≤ fuel := by
          have h1 := streamAt_length_split f1 idx
          have h2 := streamAt_length_split f2 idx
          omega
        have hS : idx < stopIndex f1 f2 idx extra := by
          rw [stopIndex]
          omega
        refine (ih (idx + 1) extra _ _ _ hfuel').trans ?_
        rw [hstop]
        congr 1
        · exact posSpec_step_append f1 p1 hS
        · exact posSpec_step_append f2 p2 hS
        · exact firstDiff_step_record f1 f2 fd hS

/-- What `main`'s indexing pass produces on two whole files. -/
theorem runIndexer_spec (f1 f2 : List Char) :
    runIndexer f1 f2 =
      ⟨posSpec f1 0 (stopIndex f1 f2 0 20),
       posSpec f2 0 (stopIndex f1 f2 0 20),
       firstDiffSpec f1 f2 0 (stopIndex f1 f2 0 20),
       (nthLine f1 (stopIndex f1 f2 0 20)).length,
       (nthLine f2 (stopIndex f1 f2 0 20)).length,
       stopIndex f1 f2 0 20,
       streamAt f1 (stopIndex f1 f2 0 20 + 1),
       streamAt f2 (stopIndex f1 f2 0 20 + 1)⟩ := by
  have h := indexLoop_spec f1 f2 (f1.length + f2.length + 21) 0 20 [] [] none
    (Nat.le_refl _)
  simpa using h

theorem find?_ne_refl (f : List Char) (S : Nat) :
    (List.range' 0 S).find? (fun k => nthLine f k != nthLine f k) = none := by
  rw [List.find?_eq_none]
  intro k _
  simp

/-- **C9.** Identical input files produce no `DiffPosition`, and both
offset indices list exactly the start offset of each of the file's
`numLines` lines — one entry per iteration in which that file produced a
non-empty read. -/
theorem identical_files_index (f : List Char) :
    (runIndexer f f).firstDiff = none ∧
      (runIndexer f f).pos1 = (List.range (numLines f)).map (offAt f) ∧
      (runIndexer f f).pos2 = (List.range (numLines f)).map (offAt f) ∧
      (runIndexer f f).pos1.length = numLines f ∧
      (runIndexer f f).pos2.length = numLines f := by
  rw [runIndexer_spec]
  have hstop : stopIndex f f 0 20 = numLines f + 20 := by
    rw [stopIndex]
    omega
  have hpos : posSpec f 0 (stopIndex f f 0 20) =
      (List.range (numLines f)).map (offAt f) := by
    rw [posSpec, hstop]
    have hmin : min (numLines f) (numLines f + 20) - 0 = numLines f := by omega
    rw [hmin, List.range_eq_range']
  refine ⟨?_, hpos, hpos, ?_, ?_⟩
  · show firstDiffSpec f f 0 (stopIndex f f 0 20) = none
    rw [firstDiffSpec, find?_ne_refl]
    rfl
  · show (posSpec f 0 (stopIndex f f 0 20)).length = numLines f
    rw [hpos]
    simp
  · show (posSpec f 0 (stopIndex f f 0 20)).length = numLines f
    rw [hpos]
    simp

theorem streamAt_nil_succ {f : List Char} {k : Nat} (h : streamAt f k = []) :
    streamAt f (k + 1) = [] := by
  rw [streamAt_succ_outer, readLine_snd_of_nil h]

/-- **C2 (amended).** The summary is derived from the final pending reads:
"same length" exactly when neither stream has bytes the comparison never
processed, and a file is reported longer exactly when it alone still has
such bytes — which happens only when it extends more than the 20-line
trailing budget past the other file's end.  In particular, for a 3-line
file against a 5-line file agreeing on the shared prefix the two extra
lines are absorbed by the budget and the summary reports that both files
are the same length. -/
theorem summary_from_unread_bytes :
    (∀ f1 f2 : List Char,
      (summary (runIndexer f1 f2) = "Both files are the same length" ↔
        (runIndexer f1 f2).lastLen1 + (runIndexer f1 f2).rem1.length = 0 ∧
        (runIndexer f1 f2).lastLen2 + (runIndexer f1 f2).rem2.length = 0) ∧
      (summary (runIndexer f1 f2) = "File 2 is longer" ↔
        (runIndexer f1 f2).lastLen1 + (runIndexer f1 f2).rem1.length = 0 ∧
        0 < (runIndexer f1 f2).lastLen2 + (runIndexer f1 f2).rem2.length) ∧
      (summary (runIndexer f1 f2) = "File 1 is longer" ↔
        0 < (runIndexer f1 f2).lastLen1 + (runIndexer f1 f2).rem1.length ∧
        (runIndexer f1 f2).lastLen2 + (runIndexer f1 f2).rem2.length = 0)) ∧
    summary (runIndexer "a\nb\nc\n".toList "a\nb\nc\nd\ne\n".toList) =
      "Both files are the same length" := by
  constructor
  · intro f1 f2
    have hspec := runIndexer_spec f1 f2
    have hL1 : (runIndexer f1 f2).lastLen1 =
        (nthLine f1 (stopIndex f1 f2 0 20)).length := by rw [hspec]
    have hL2 : (runIndexer f1 f2).lastLen2 =
        (nthLine f2 (stopIndex f1 f2 0 20)).length := by rw [hspec]
    have hR1 : (runIndexer f1 f2).rem1 =
        streamAt f1 (stopIndex f1 f2 0 20 + 1) := by rw [hspec]
    have hR2 : (runIndexer f1 f2).rem2 =
        streamAt f2 (stopIndex f1 f2 0 20 + 1) := by rw [hspec]
    have hone : (nthLine f1 (stopIndex f1 f2 0 20)).length = 0 ∨
        (nthLine f2 (stopIndex f1 f2 0 20)).length = 0 := by
      have hminS : min (numLines f1) (numLines f2) ≤ stopIndex f1 f2 0 20 := by
        rw [stopIndex]
        omega
      rcases min_le_iff.mp hminS with hle | hle
      · exact Or.inl (nthLine_length_zero_iff.mpr hle)
      · exact Or.inr (nthLine_length_zero_iff.mpr hle)
    have hrem1 : (nthLine f1 (stopIndex f1 f2 0 20)).length = 0 →
        (streamAt f1 (stopIndex f1 f2 0 20 + 1)).length = 0 := by
      intro h
      rw [streamAt_nil_succ (streamAt_eq_nil_iff.mpr
        (nthLine_length_zero_iff.mp h))]
      rfl
    have hrem2 : (nthLine f2 (stopIndex f1 f2 0 20)).length = 0 →
        (streamAt f2 (stopIndex f1 f2 0 20 + 1)).length = 0 := by
      intro h
      rw [streamAt_nil_succ (streamAt_eq_nil_iff.mpr
        (nthLine_length_zero_iff.mp h))]
      rfl
    rw [summary, hL1, hL2, hR1, hR2]
    by_cases hz1 : (nthLine f1 (stopIndex f1 f2 0 20)).length = 0 <;>
      by_cases hz2 : (nthLine f2 (stopIndex f1 f2 0 20)).length = 0
    · rw [if_pos ⟨hz1, hz2⟩]
      have e1 := hrem1 hz1
      have e2 := hrem2 hz2
      refine ⟨⟨fun _ => by omega, fun _ => rfl⟩, ⟨fun h => ?_, fun h => ?_⟩,
        ⟨fun h => ?_, fun h => ?_⟩⟩
      · exact absurd h (by decide)
      · omega
      · exact absurd h (by decide)
      · omega
    · rw [if_neg (by omega)]
      rw [if_pos hz1]
      have e1 := hrem1 hz1
      refine ⟨⟨fun h => ?_, fun h => ?_⟩, ⟨fun _ => by omega, fun _ => rfl⟩,
        ⟨fun h => ?_, fun h => ?_⟩⟩
      · exact absurd h (by decide)
      · omega
      · exact absurd h (by decide)
      · omega
    · rw [if_neg (by omega)]
      rw [if_neg hz1]
      have e2 := hrem2 hz2
      refine ⟨⟨fun h => ?_, fun h => ?_⟩, ⟨fun h => ?_, fun h => ?_⟩,
        ⟨fun _ => by omega, fun _ => rfl⟩⟩
      · exact absurd h (by decide)
      · omega
      · exact absurd h (by decide)
      · omega
    · omega
  · decide

/-- **C2 counterexample.** For a 3-line file against a 5-line file with the
shared prefix identical, the claim predicts the summary "File 2 is longer",
but the budgeted loop drains both files and reports equal length. -/
theorem summary_example_counterexample :
    summary (runIndexer "a\nb\nc\n".toList "a\nb\nc\nd\ne\n".toList) =
        "Both files are the same length" ∧
      summary (runIndexer "a\nb\nc\n".toList "a\nb\nc\nd\ne\n".toList) ≠
        "File 2 is longer" := by
  constructor
  · decide
  · decide

/-- **C4 (amended).** The loop stops exactly when at least one read
returned zero length and the trailing-lines budget is exhausted.  When at
least one read is zero-length — including when both are — and the budget
is positive, the budget is decremented and the loop continues; when both
reads are non-empty the loop continues with the budget unchanged. -/
theorem loop_control_amended (len1 len2 extra : Nat) :
    (loopControl len1 len2 extra = none ↔
      (len1 = 0 ∨ len2 = 0) ∧ extra = 0) ∧
    ((len1 = 0 ∨ len2 = 0) → 0 < extra →
      loopControl len1 len2 extra = some (extra - 1)) ∧
    (len1 ≠ 0 → len2 ≠ 0 → loopControl len1 len2 extra = some extra) := by
  refine ⟨?_, ?_, ?_⟩
  · by_cases hz : len1 = 0 ∨ len2 = 0
    · by_cases hx : 0 < extra
      · rw [loopControl, if_pos hz, if_pos hx]
        constructor
        · intro h; exact Option.noConfusion h
        · intro h; omega
      · rw [loopControl, if_pos hz, if_neg hx]
        constructor
        · intro _; exact ⟨hz, by omega⟩
        · intro _; rfl
    · rw [loopControl, if_neg hz]
      constructor
      · intro h; exact Option.noConfusion h
      · intro ⟨h, _⟩; exact absurd h hz
  · intro hz hx
    rw [loopControl, if_pos hz, if_pos hx]
  · intro h1 h2
    rw [loopControl, if_neg (by omega)]

/-- Witness for the amended C4: the three behaviours at concrete inputs. -/
theorem loop_control_amended_witness :
    loopControl 0 0 0 = none ∧ loopControl 0 0 20 = some 19 ∧
      loopControl 3 4 7 = some 7 :=
  ⟨(loop_control_amended 0 0 0).1.mpr ⟨Or.inl rfl, rfl⟩,
   (loop_control_amended 0 0 20).2.1 (Or.inl rfl) (by decide),
   (loop_control_amended 3 4 7).2.2 (by decide) (by decide)⟩

/-- **C4 counterexample.** The claim says the loop stops as soon as both
reads return zero length, but with both files empty (both reads are
end-of-file from the start) and the default budget of 20, the decision is
to continue, and the loop in fact runs 20 more iterations before
breaking. -/
theorem loop_continues_on_double_eof :
    loopControl 0 0 20 = some 19 ∧ loopControl 0 0 20 ≠ none ∧
      (runIndexer [] []).finalIndex = 20 := by
  decide

theorem find_offset_aux_spec :
    ∀ (l1 : List Char) (l2 : List Char) (o : Nat), l1 ≠ l2 →
      ∃ m, find_offset_aux o l1 l2 = o + m ∧
        l1.get? m ≠ l2.get? m ∧ ∀ j, j < m → l1.get? j = l2.get? j := by
  intro l1
  induction l1 with
  | nil =>
      intro l2 o h
      cases l2 with
      | nil => exact absurd rfl h
      | cons c2 r2 =>
          refine ⟨0, by simp [find_offset_aux], by simp, ?_⟩
          intro j hj
          omega
  | cons c1 r1 ih =>
      intro l2 o h
      cases l2 with
      | nil =>
          refine ⟨0, by simp [find_offset_aux], by simp, ?_⟩
          intro j hj
          omega
      | cons c2 r2 =>
          by_cases hc : c1 = c2
          · subst hc
            have hr : r1 ≠ r2 := by
              intro hr
              exact h (by rw [hr])
            obtain ⟨m, hm, hget, hbefore⟩ := ih r2 (o + 1) hr
            refine ⟨m + 1, ?_, ?_, ?_⟩
            · rw [find_offset_aux, if_neg (by simp), hm]
              omega
            · simpa using hget
            · intro j hj
              cases j with
              | zero => rfl
              | succ j => simpa using hbefore j (by omega)
          · refine ⟨0, ?_, ?_, ?_⟩
            · rw [find_offset_aux, if_pos (by simpa using hc)]
              omega
            · simpa using hc
            · intro j hj
              omega

/-- The `find_offset` closure returns the index of the first character
pair that differs — or the length of the shorter line when one line is a
strict prefix of the other (in both cases: the first index at which the
two lines' optional characters disagree). -/
theorem find_offset_spec {l1 l2 : List Char} (h : l1 ≠ l2) :
    l1.get? (find_offset l1 l2) ≠ l2.get? (find_offset l1 l2) ∧
      ∀ j, j < find_offset l1 l2 → l1.get? j = l2.get? j := by
  obtain ⟨m, hm, h1, h2⟩ := find_offset_aux_spec l1 l2 0 h
  have : find_offset l1 l2 = m := by rw [find_offset, hm]; omega
  rw [this]
  exact ⟨h1, h2⟩

theorem find?_range'_some {p : Nat → Bool} :
    ∀ {n i k : Nat}, (List.range' i n).find? p = some k →
      p k = true ∧ i ≤ k ∧ k < i + n ∧
        ∀ j, i ≤ j → j < k → p j = false := by
  intro n
  induction n with
  | zero =>
      intro i k h
      simp [List.range'] at h
  | succ n ih =>
      intro i k h
      rw [List.range'_succ i n 1] at h
      by_cases hp : p i = true
      · rw [List.find?_cons_of_pos _ hp] at h
        simp only [Option.some.injEq] at h
        subst h
        exact ⟨hp, Nat.le_refl _, by omega, fun j h1 h2 => by omega⟩
      · rw [List.find?_cons_of_neg _ hp] at h
        obtain ⟨hk, hik, hbound, hmin⟩ := ih h
        refine ⟨hk, by omega, by omega, ?_⟩
        intro j h1 h2
        rcases Nat.eq_or_lt_of_le h1 with rfl | hlt
        · simpa using hp
        · exact hmin j (by omega) h2

/-- **C1 (amended).** When the indexing loop records a divergence `d`:
`d.line_index` is the 0-based index of the first line pair whose contents
differ, and is a valid index into the offset index of each file whose read
at that iteration was non-empty (when the divergence arises because one
file already ended, it can lie past the end of that file's offsets);
`d.line_offset` (the spec's `char_offset`) is the index of the first
character pair that differs — the shorter line's length when one line is a
strict prefix of the other; and the recorded file offsets are each file's
running byte offset from before that line was read.  If no divergence is
recorded, the files agree on every line pair the loop compared. -/
theorem first_divergence_characterised (f1 f2 : List Char) :
    (∀ d, (runIndexer f1 f2).firstDiff = some d →
      nthLine f1 d.line_index ≠ nthLine f2 d.line_index ∧
      (∀ j, j < d.line_index → nthLine f1 j = nthLine f2 j) ∧
      d.line_offset =
        find_offset (nthLine f1 d.line_index) (nthLine f2 d.line_index) ∧
      (nthLine f1 d.line_index).get? d.line_offset ≠
        (nthLine f2 d.line_index).get? d.line_offset ∧
      (∀ j, j < d.line_offset →
        (nthLine f1 d.line_index).get? j = (nthLine f2 d.line_index).get? j) ∧
      d.file1_offset = offAt f1 d.line_index ∧
      d.file2_offset = offAt f2 d.line_index ∧
      d.line_index < (runIndexer f1 f2).finalIndex ∧
      (nthLine f1 d.line_index ≠ [] →
        d.line_index < (runIndexer f1 f2).pos1.length) ∧
      (nthLine f2 d.line_index ≠ [] →
        d.line_index < (runIndexer f1 f2).pos2.length)) ∧
    ((runIndexer f1 f2).firstDiff = none →
      ∀ k, k < (runIndexer f1 f2).finalIndex →
        nthLine f1 k = nthLine f2 k) := by
  have hspec := runIndexer_spec f1 f2
  have hfd : (runIndexer f1 f2).firstDiff =
      firstDiffSpec f1 f2 0 (stopIndex f1 f2 0 20) := by rw [hspec]
  have hp1 : (runIndexer f1 f2).pos1.length =
      min (numLines f1) (stopIndex f1 f2 0 20) := by
    rw [hspec]
    show (posSpec f1 0 (stopIndex f1 f2 0 20)).length = _
    rw [posSpec]
    simp
  have hp2 : (runIndexer f1 f2).pos2.length =
      min (numLines f2) (stopIndex f1 f2 0 20) := by
    rw [hspec]
    show (posSpec f2 0 (stopIndex f1 f2 0 20)).length = _
    rw [posSpec]
    simp
  have hfin : (runIndexer f1 f2).finalIndex = stopIndex f1 f2 0 20 := by
    rw [hspec]
  constructor
  · intro d hd
    rw [hfd, firstDiffSpec] at hd
    obtain ⟨k, hfind, hdiffAt⟩ := Option.map_eq_some'.mp hd
    obtain ⟨hk, _, hbound, hmin⟩ := find?_range'_some hfind
    have hne : nthLine f1 k ≠ nthLine f2 k := by simpa using hk
    have hbefore : ∀ j, j < k → nthLine f1 j = nthLine f2 j := by
      intro j hj
      have := hmin j (by omega) hj
      simpa using this
    subst hdiffAt
    obtain ⟨hgets, hgetlt⟩ := find_offset_spec hne
    refine ⟨hne, hbefore, rfl, hgets, hgetlt, rfl, rfl, ?_, ?_, ?_⟩
    · show k < (runIndexer f1 f2).finalIndex
      rw [hfin]
      omega
    · intro hnil
      show k < (runIndexer f1 f2).pos1.length
      rw [hp1]
      have h1 : k < numLines f1 := by
        have := nthLine_eq_nil_iff (f := f1) (k := k)
        by_contra hc
        exact hnil (this.mpr (by omega))
      omega
    · intro hnil
      show k < (runIndexer f1 f2).pos2.length
      rw [hp2]
      have h2 : k < numLines f2 := by
        have := nthLine_eq_nil_iff (f := f2) (k := k)
        by_contra hc
        exact hnil (this.mpr (by omega))
      omega
  · intro hnone k hk
    rw [hfd, firstDiffSpec] at hnone
    have hfind : (List.range' 0 (stopIndex f1 f2 0 20 - 0)).find?
        (fun k => nthLine f1 k != nthLine f2 k) = none :=
      Option.map_eq_none'.mp hnone
    have := List.find?_eq_none.mp hfind k
      (List.mem_range'_1.mpr ⟨by omega, by rw [hfin] at hk; omega⟩)
    simpa using this

/-- Witness for the amended C1: both branches exercised at concrete
inputs — a recorded divergence for `"a\n"` vs `"a\nb\n"`, and the
identical-prefix guarantee for two equal files. -/
theorem first_divergence_characterised_witness :
    nthLine "a\n".toList 1 ≠ nthLine "a\nb\n".toList 1 ∧
      nthLine "x".toList 0 = nthLine "x".toList 0 :=
  ⟨((first_divergence_characterised "a\n".toList "a\nb\n".toList).1
      ⟨1, 0, 2, 2⟩ (by decide)).1,
   (first_divergence_characterised "x".toList "x".toList).2 (by decide)
      0 (by decide)⟩

/-- **C1 counterexample.** For `"a\n"` vs `"a\nb\n"` the divergence is
recorded at `line_index = 1` (file 1 has already ended), but file 1's
offset index has length 1, so `line_index` is not a valid index into both
offset index sequences as the claim asserts. -/
theorem diff_position_index_counterexample :
    (runIndexer "a\n".toList "a\nb\n".toList).firstDiff =
        some ⟨1, 0, 2, 2⟩ ∧
      (runIndexer "a\n".toList "a\nb\n".toList).pos1.length = 1 ∧
      ¬((1 : Nat) < (runIndexer "a\n".toList "a\nb\n".toList).pos1.length) := by
  decide

/-- Witness for C8 at concrete line sequences: a paired index, a left-only
index and a right-only index. -/
theorem diff_line_pairs_positional_witness :
    (calculate_diffs [['a'], ['b']] [['x']]).get? 0 =
        some (calculate_line_diffs ['a'] ['x']) ∧
      (calculate_diffs [['a'], ['b']] [['x']]).get? 1 =
        some [DiffSection.Removed ['b']] ∧
      (calculate_diffs [] [['y']]).get? 0 = some [DiffSection.Added ['y']] :=
  ⟨(diff_line_pairs_positional [['a'], ['b']] [['x']]).2.1 0 ['a'] ['x'] rfl rfl,
   (diff_line_pairs_positional [['a'], ['b']] [['x']]).2.2.1 1 ['b'] rfl rfl,
   (diff_line_pairs_positional [] [['y']]).2.2.2 0 ['y'] rfl rfl⟩

end TraceLog
